import Mathlib

/-!
Verification of the timeline processing engine of mermaid-gantt-generator.

The embedded code is `src/timeline_logic.py` (the engine: `calculate_duration`,
`get_task_status`, `calculate_end_date`, `process_timeline_data`) together with
the `IsMilestone` coercion of `src/input_parser.py` (lines 113-119).

Modelling conventions:
* Dates are at day resolution: a date is an integer counting days since
  Monday 2024-01-01 (so `2024-01-06`, a Saturday, is day `5`).  The weekday of
  day `d` is `d % 7` with `0 = Monday ... 6 = Sunday`, matching Python's
  `date.weekday()`.  A pandas value that may be `NaT`/`NaN` is an `Option`.
* pandas library calls are modelled by Lean functions with the library's
  documented behaviour: `BusinessDay` addition follows the algorithm of
  `pandas._libs.tslibs.offsets.BusinessDay` (`bdayAdd` below),
  `DataFrame.sort_values` on several keys is a stable sort (`List.mergeSort`),
  `groupby` iterates groups in ascending key order preserving member order.
* `strftime` of a valid timestamp followed by `pd.to_datetime` of the result
  is the identity at day resolution, so formatted dates are kept as integers
  and the re-parsed sort key of an assembled entry is `some` of its date.
* Numbers (`WorkingDays`, `PercentComplete`) are rationals: the engine only
  compares them and truncates them toward zero, and every float the program
  handles is a rational.
-/

-- Dates are plain integers: days since Monday 2024-01-01.


/-- Source: src/timeline_logic.py lines 6-11 (`calculate_duration`).
Returns 0 when either date is missing (`pd.isna`) or `end < start`;
otherwise the inclusive day count `(end - start).days + 1`. -/
def calculate_duration (start_date end_date : Option Int) : Int :=
  match start_date, end_date with
  | some s, some e => if e < s then 0 else (e - s) + 1
  | _, _ => 0

/-- Source: src/timeline_logic.py lines 13-23 (`get_task_status`).
`None`/`NaN` or a value `<= 0` is "active"; then `>= 100` is "done";
anything else is "active". -/
def get_task_status (percent_complete : Option ℚ) : String :=
  match percent_complete with
  | none => "active"
  | some p => if p ≤ 0 then "active" else if 100 ≤ p then "done" else "active"

/-- A raw `working_days` argument of `calculate_end_date`: `NaN`/`None`,
a number, or a string (Python `int(...)` accepts integer-literal strings
and raises on anything else). -/
inductive WDVal where
  | na
  | num (q : ℚ)
  | txt (s : String)
deriving DecidableEq

/-- Python `int(...)` on a rational: truncation toward zero
(`int(3.7) == 3`, `int(-3.7) == -3`). -/
def truncToward0 (q : ℚ) : Int :=
  q.num.tdiv q.den

/-- Decimal digits of a string tail, accumulating into `acc`; `none` once a
non-digit appears or when there was no digit at all. -/
def digitsVal : List Char → Option Nat → Option Nat
  | [], acc => acc
  | c :: cs, acc =>
    if c.isDigit then
      match acc with
      | none => digitsVal cs (some (c.toNat - 48))
      | some n => digitsVal cs (some (n * 10 + (c.toNat - 48)))
    else none

/-- Python `int(...)` on a string: an optional sign followed by decimal
digits parses, anything else raises `ValueError` (surrounding whitespace
and digit grouping are not modelled). -/
def pyIntOfString (s : String) : Option Int :=
  match s.data with
  | '-' :: rest => (digitsVal rest none).map (fun n => -(n : Int))
  | '+' :: rest => (digitsVal rest none).map (fun n => (n : Int))
  | l => (digitsVal l none).map (fun n => (n : Int))

/-- Library model: `d + BusinessDay(n)` for `n ≥ 0`, following the week
arithmetic of `pandas._libs.tslibs.offsets.BusinessDay` (`_adjust_ndays`):
`weeks = n // 5`; a weekend start with `n = 0` first rolls forward one day
of count; then the remaining in-week shift, rolling a weekend start forward
(which consumes one of the `n` days) and rolling back to Friday when the
remaining count is zero on a weekend. -/
def bdayAdd (d : Int) (n : Nat) : Int :=
  let wday : Int := d % 7
  let weeks : Int := (n : Int) / 5
  let n1 : Int := if 4 < wday then (if n = 0 then 1 else (n : Int)) else (n : Int)
  let nr : Int := n1 - 5 * weeks
  let days : Int :=
    if 4 < wday then (if nr = 0 then 4 - wday else (7 - wday) + (nr - 1))
    else if wday + nr ≤ 4 then nr
    else nr + 2
  d + 7 * weeks + days

/-- Source: src/timeline_logic.py lines 25-59 (`calculate_end_date`).
Returns `start_date` when it is `NaT` or `working_days` is `NaN`, fails
`int(...)` conversion, or truncates to `<= 0`; otherwise adds
`BusinessDay(wd_int - 1)` to the start date. -/
def calculate_end_date (start_date : Option Int) (working_days : WDVal) : Option Int :=
  match start_date with
  | none => none
  | some s =>
    match working_days with
    | .na => some s
    | .num q =>
      let wd_int := truncToward0 q
      if wd_int ≤ 0 then some s
      else some (bdayAdd s (wd_int - 1).toNat)
    | .txt t =>
      match pyIntOfString t with
      | none => some s
      | some wd_int =>
        if wd_int ≤ 0 then some s
        else some (bdayAdd s (wd_int - 1).toNat)

/-- The next business day at or after `d`: a weekend day rolls forward to
Monday, a business day stays. -/
def rollForward (d : Int) : Int :=
  if d % 7 = 5 then d + 2 else if d % 7 = 6 then d + 1 else d

/-- Advance one business day at a time: each step moves to the first
business day strictly after the current day. -/
def advanceBDays (d : Int) : Nat → Int
  | 0 => d
  | Nat.succ k => advanceBDays (rollForward (d + 1)) k

/-- Modelled from the claim's words for `projectEndDate` (spec section 4.1):
same guards as `calculate_end_date`, but the result is reached by FIRST
rolling a weekend start forward to the next business day and THEN advancing
`workingDays - 1` business days from there.  Kept for comparison with
`calculate_end_date`; the two differ on weekend starts. -/
def claimProjectEnd (start_date : Option Int) (working_days : WDVal) : Option Int :=
  match start_date with
  | none => none
  | some s =>
    match working_days with
    | .na => some s
    | .num q =>
      let wd_int := truncToward0 q
      if wd_int ≤ 0 then some s
      else some (advanceBDays (rollForward s) (wd_int - 1).toNat)
    | .txt t =>
      match pyIntOfString t with
      | none => some s
      | some wd_int =>
        if wd_int ≤ 0 then some s
        else some (advanceBDays (rollForward s) (wd_int - 1).toNat)

/-- A date-like cell as handed to `pd.to_datetime(..., errors="coerce")`:
already a timestamp, missing (`NaN`/`NaT`/`None`), or a value (such as
unparseable text) that the coercion sends to `NaT`. -/
inductive DCell where
  | date (d : Int)
  | na
  | bad
deriving DecidableEq

/-- Library model: `pd.to_datetime(..., errors="coerce")` on one cell
(src/timeline_logic.py lines 102-103). -/
def toDatetime : DCell → Option Int
  | .date d => some d
  | _ => none

/-- A number-like cell as handed to `pd.to_numeric(..., errors="coerce")`:
a number, missing, or a value the coercion sends to `NaN`. -/
inductive NCell where
  | num (q : ℚ)
  | na
  | bad
deriving DecidableEq

/-- Library model: `pd.to_numeric(..., errors="coerce")` on one cell
(src/timeline_logic.py lines 104-105). -/
def toNumeric : NCell → Option ℚ
  | .num q => some q
  | _ => none

/-- A raw `IsMilestone` cell: a string, an integer, a boolean, or missing. -/
inductive BCell where
  | txt (s : String)
  | int (z : Int)
  | bool (b : Bool)
  | na
deriving DecidableEq

/-- Source: src/timeline_logic.py lines 106-111.  The engine's own
`IsMilestone` coercion: `replace` maps the literal values
`"True"/"False"/"yes"/"no"/"1"/"0"/1/0/True/False`, then `fillna(False)`,
then `astype(bool)` (Python truthiness) on whatever `replace` left alone. -/
def engine_is_milestone : BCell → Bool
  | .txt s =>
    if s = "True" then true
    else if s = "False" then false
    else if s = "yes" then true
    else if s = "no" then false
    else if s = "1" then true
    else if s = "0" then false
    else s != ""
  | .int z =>
    if z = 1 then true
    else if z = 0 then false
    else z != 0
  | .bool b => b
  | .na => false

/-- ASCII lower-casing of one character (model of Python `str.lower` on the
ASCII range; the repository's truthy tokens are all ASCII). -/
def lowerChar (c : Char) : Char :=
  if 65 ≤ c.toNat ∧ c.toNat ≤ 90 then Char.ofNat (c.toNat + 32) else c

/-- ASCII lower-casing of a string. -/
def lowerStr (s : String) : String :=
  String.mk (s.data.map lowerChar)

/-- Python `str(...)` of an `IsMilestone` cell (`astype(str)`); missing
cells never reach it because `fillna(False)` runs first. -/
def pyStr : BCell → String
  | .txt s => s
  | .int z => toString z
  | .bool true => "True"
  | .bool false => "False"
  | .na => "nan"

/-- Source: src/input_parser.py line 116 (`true_values`). -/
def loader_true_values : List String :=
  ["true", "yes", "1", "t", "y"]

/-- Source: src/input_parser.py lines 113-119.  The input loader's
`IsMilestone` coercion:
`fillna(False).astype(str).str.lower().isin(["true","yes","1","t","y"])`. -/
def loader_is_milestone (c : BCell) : Bool :=
  match c with
  | .na => loader_true_values.contains (lowerStr (pyStr (.bool false)))
  | c => loader_true_values.contains (lowerStr (pyStr c))

/-- A raw `MilestoneGroup` cell: a string or missing. -/
inductive GCell where
  | txt (s : String)
  | na
deriving DecidableEq

/-- Source: src/timeline_logic.py line 112: `fillna("").astype(str)`. -/
def toGroupStr : GCell → String
  | .na => ""
  | .txt s => s

/-- A raw input row of the DataFrame passed to `process_timeline_data`,
after the optional-column defaults of lines 88-99 (a missing optional
column is the all-missing column, per the defaults `NaT`/`NA`/`False`/`""`,
each of which coerces like a missing cell). -/
structure Row where
  WorkStream : String
  WorkPackage : String
  Start : DCell
  End : DCell
  WorkingDays : NCell
  PercentComplete : NCell
  IsMilestone : BCell
  MilestoneGroup : GCell
deriving DecidableEq

/-- A row after the type coercions of src/timeline_logic.py lines 102-112. -/
structure CRow where
  WorkStream : String
  WorkPackage : String
  Start : Option Int
  End : Option Int
  WorkingDays : Option ℚ
  PercentComplete : Option ℚ
  IsMilestone : Bool
  MilestoneGroup : String
deriving DecidableEq

/-- A row after the derived columns of src/timeline_logic.py lines 141-147
(`Duration`, `Status`) are added. -/
structure NRow where
  WorkStream : String
  WorkPackage : String
  Start : Option Int
  End : Option Int
  WorkingDays : Option ℚ
  PercentComplete : Option ℚ
  IsMilestone : Bool
  MilestoneGroup : String
  Duration : Int
  Status : String
deriving DecidableEq

/-- One entry of `milestones_to_add` (src/timeline_logic.py lines 163-168
and 194-199) without the constant fields added later. -/
structure MEntry where
  WorkPackage : String
  MilestoneDate : Int
  WorkStream : String
deriving DecidableEq

/-- One row of the returned DataFrame: the columns selected at
src/timeline_logic.py lines 208-224.  `Start` is the `%Y-%m-%d` formatted
date kept at day resolution. -/
structure SEntry where
  WorkStream : String
  WorkPackage : String
  Status : String
  Start : Int
  Duration : Int
  IsGeneratedMilestone : Bool
deriving DecidableEq

/-- Source: src/timeline_logic.py lines 102-112 applied to one row. -/
def coerceRow (r : Row) : CRow :=
  { WorkStream := r.WorkStream
    WorkPackage := r.WorkPackage
    Start := toDatetime r.Start
    End := toDatetime r.End
    WorkingDays := toNumeric r.WorkingDays
    PercentComplete := toNumeric r.PercentComplete
    IsMilestone := engine_is_milestone r.IsMilestone
    MilestoneGroup := toGroupStr r.MilestoneGroup }

/-- The mask `df["WorkingDays"].notna() & (df["WorkingDays"] > 0)` of
src/timeline_logic.py line 123 on one cell (`NaN > 0` is false). -/
def wdPos : Option ℚ → Bool
  | some w => decide (0 < w)
  | none => false

/-- The `WorkingDays` cell as `calculate_end_date` receives it. -/
def wdValOf : Option ℚ → WDVal
  | some q => .num q
  | none => .na

/-- Source: src/timeline_logic.py lines 121-139: where `End` is missing and
`WorkingDays` is present and positive, compute `End` with
`calculate_end_date` (the re-coercion of line 131 is the identity on the
timestamps this produces). -/
def fillEnd (r : CRow) : CRow :=
  if r.End = none ∧ wdPos r.WorkingDays then
    { r with End := calculate_end_date r.Start (wdValOf r.WorkingDays) }
  else r

/-- Source: src/timeline_logic.py line 144: `df["End"].fillna(df["Start"])`. -/
def fillEndStart (r : CRow) : CRow :=
  { r with End := r.End.or r.Start }

/-- Source: src/timeline_logic.py lines 146-147: the `Duration` and
`Status` columns. -/
def addDerived (r : CRow) : NRow :=
  { WorkStream := r.WorkStream
    WorkPackage := r.WorkPackage
    Start := r.Start
    End := r.End
    WorkingDays := r.WorkingDays
    PercentComplete := r.PercentComplete
    IsMilestone := r.IsMilestone
    MilestoneGroup := r.MilestoneGroup
    Duration := calculate_duration r.Start r.End
    Status := get_task_status r.PercentComplete }

/-- The whole per-row normalization: coercion, End resolution, duration
and status (src/timeline_logic.py lines 102-147 restricted to one row). -/
def normalizeRow (r : Row) : NRow :=
  addDerived (fillEndStart (fillEnd (coerceRow r)))

/-- Source: src/timeline_logic.py lines 102-147 on the whole table,
including the invalid-`Start` drop of lines 114-119. -/
def normalizeTable (rows : List Row) : List NRow :=
  (((rows.map coerceRow).filter (fun r => r.Start.isSome)).map
    (fun r => addDerived (fillEndStart (fillEnd r))))

/-- Source: src/timeline_logic.py lines 152-156: an explicit milestone's
date is its `End`, falling back to `Start` when `End` is `NaT`; `none`
when neither is available (the skip of lines 159-161). -/
def explicit_milestone_date (r : NRow) : Option Int :=
  if r.End.isSome then r.End else r.Start

/-- Source: src/timeline_logic.py lines 149-168: one `MilestoneEntry` per
`IsMilestone` row whose date resolves, in row order. -/
def explicitMilestones (rows : List NRow) : List MEntry :=
  (rows.filter (fun r => r.IsMilestone)).filterMap (fun r =>
    (explicit_milestone_date r).map (fun d =>
      { WorkPackage := r.WorkPackage, MilestoneDate := d, WorkStream := r.WorkStream }))

/-- Source: src/timeline_logic.py line 170 on one row: `Status` is
overwritten to "milestone" exactly when the row produced an explicit
milestone. -/
def markOne (r : NRow) : NRow :=
  if r.IsMilestone ∧ (explicit_milestone_date r).isSome then
    { r with Status := "milestone" }
  else r

/-- Source: src/timeline_logic.py line 170 over the table. -/
def markMilestones (rows : List NRow) : List NRow :=
  rows.map markOne

/-- Source: src/timeline_logic.py line 176: the work-package rows eligible
for grouped milestones. -/
def wpRows (rows : List NRow) : List NRow :=
  rows.filter (fun r =>
    decide (r.IsMilestone = false ∧ r.MilestoneGroup ≠ "" ∧ r.End ≠ none))

/-- Boolean lexicographic order on character lists (Python string `<=`,
code-point order). -/
def lexLe : List Char → List Char → Bool
  | [], _ => true
  | _ :: _, [] => false
  | a :: as, b :: bs =>
    if a < b then true else if b < a then false else lexLe as bs

/-- Python string order, as a proposition. -/
def strLe (a b : String) : Prop :=
  lexLe a.data b.data = true

instance : DecidableRel strLe :=
  fun a b => inferInstanceAs (Decidable (lexLe a.data b.data = true))

/-- Library model: the distinct group keys in the ascending order pandas
`groupby` (with its default `sort=True`) iterates them
(src/timeline_logic.py line 179). -/
def groupLabels (rows : List NRow) : List String :=
  List.insertionSort strLe ((rows.map (fun r => r.MilestoneGroup)).dedup)

/-- Library model: `Series.min` (`NaN`-free input; `none` on empty). -/
def minQ : List ℚ → Option ℚ
  | [] => none
  | x :: xs => some (xs.foldl min x)

/-- Library model: `Series.max` on dates (`none` on empty). -/
def maxD : List Int → Option Int
  | [] => none
  | x :: xs => some (xs.foldl max x)

/-- Source: src/timeline_logic.py lines 180-201 for one group: skip when
any member's `PercentComplete` is missing; require the minimum to be at
least 100 (an empty minimum is `NaN`, which fails the test); the milestone
date is the maximum `End`, the stream the first member's `WorkStream`. -/
def group_milestone (g : String) (members : List NRow) : Option MEntry :=
  if members.any (fun r => r.PercentComplete.isNone) then none
  else
    match minQ (members.filterMap (fun r => r.PercentComplete)) with
    | none => none
    | some m =>
      if 100 ≤ m then
        match maxD (members.filterMap (fun r => r.End)) with
        | none => none
        | some dmax =>
          some { WorkPackage := g, MilestoneDate := dmax,
                 WorkStream :=
                   match members with
                   | [] => "Milestones"
                   | r :: _ => r.WorkStream }
      else none

/-- Source: src/timeline_logic.py lines 173-201: the grouped milestones,
one per qualifying group label, in `groupby` key order. -/
def groupedMilestones (rows : List NRow) : List MEntry :=
  (groupLabels (wpRows rows)).filterMap (fun g =>
    group_milestone g ((wpRows rows).filter (fun r => r.MilestoneGroup == g)))

/-- Source: src/timeline_logic.py lines 208-216 on one row: a regular
work-package entry when the row is not marked "milestone", has a valid
`Start` and a positive `Duration`. -/
def regularOne (r : NRow) : Option SEntry :=
  match r.Start with
  | none => none
  | some s =>
    if r.Status ≠ "milestone" ∧ 0 < r.Duration then
      some { WorkStream := r.WorkStream, WorkPackage := r.WorkPackage,
             Status := r.Status, Start := s, Duration := r.Duration,
             IsGeneratedMilestone := false }
    else none

/-- Source: src/timeline_logic.py lines 208-216 over the table. -/
def regularEntries (rows : List NRow) : List SEntry :=
  rows.filterMap regularOne

/-- Source: src/timeline_logic.py lines 219-224: the generated-milestone
entries with their constant columns. -/
def milestoneEntries (ms : List MEntry) : List SEntry :=
  ms.map (fun m =>
    { WorkStream := m.WorkStream, WorkPackage := m.WorkPackage,
      Status := "milestone", Start := m.MilestoneDate, Duration := 0,
      IsGeneratedMilestone := true })

/-- Source: src/timeline_logic.py lines 149-227: explicit milestones are
collected from the normalized table, their rows are marked, grouped
milestones are collected from the marked table, and regular entries are
concatenated with all milestone entries (line 227). -/
def assembleRows (rows : List Row) : List SEntry :=
  regularEntries (markMilestones (normalizeTable rows)) ++
    milestoneEntries
      (explicitMilestones (normalizeTable rows) ++
        groupedMilestones (markMilestones (normalizeTable rows)))

/-- The `NaT`-last comparison on re-parsed sort dates
(`na_position="last"` of src/timeline_logic.py line 237). -/
def odLe : Option Int → Option Int → Bool
  | _, none => true
  | none, some _ => false
  | some x, some y => decide (x ≤ y)

/-- The re-parsed `SortDate` of src/timeline_logic.py line 235: every
assembled entry's `Start` is the `%Y-%m-%d` form of a valid timestamp, so
re-parsing always succeeds and yields the entry's date. -/
def sortDate (e : SEntry) : Option Int :=
  some e.Start

/-- The sort key order of src/timeline_logic.py line 237: by `WorkStream`,
then by `SortDate` with `NaT` last. -/
def entryLeB (a b : SEntry) : Bool :=
  if a.WorkStream = b.WorkStream then odLe (sortDate a) (sortDate b)
  else lexLe a.WorkStream.data b.WorkStream.data

/-- Library model: `sort_values(by=["WorkStream", "SortDate"],
na_position="last")`, a stable sort on the two keys
(pandas uses `lexsort` for several keys, which is stable). -/
def sortEntries (l : List SEntry) : List SEntry :=
  l.mergeSort entryLeB

/-- Source: src/timeline_logic.py lines 62-241 (`process_timeline_data`)
on a non-`None` table: the early returns of lines 74-76, 119 and 229-231,
otherwise the assembled entries sorted. -/
def processRows (rows : List Row) : List SEntry :=
  if rows = [] then []
  else if normalizeTable rows = [] then []
  else if assembleRows rows = [] then []
  else sortEntries (assembleRows rows)

/-- Source: src/timeline_logic.py lines 62-241 (`process_timeline_data`),
with the `df is None` case of line 74. -/
def process_timeline_data (df : Option (List Row)) : List SEntry :=
  match df with
  | none => []
  | some rows => processRows rows

/-- The caller's DataFrame after `process_timeline_data` returns: the
function mutates `df` in place (column coercions at lines 102-112, the
inplace drop of invalid-`Start` rows at line 118, the `End` fills at lines
127-144, the derived `Duration`/`Status` columns at lines 146-147 and the
`Status` overwrite at line 170 all write to the caller's object; only the
output frames of lines 208-227 are copies).  On an empty input the
function returns at line 76 before any mutation. -/
def process_post (rows : List Row) : List NRow :=
  if rows = [] then [] else markMilestones (normalizeTable rows)

/-- Concrete example row: Start 2024-01-10 (day 9), End 2024-01-05 (day 4),
an explicit End earlier than Start. -/
def rowEndBeforeStart : Row :=
  { WorkStream := "A", WorkPackage := "P1", Start := .date 9, End := .date 4,
    WorkingDays := .na, PercentComplete := .num 50, IsMilestone := .bool false,
    MilestoneGroup := .na }

/-- Concrete example row: a plain valid task row. -/
def rowPlain : Row :=
  { WorkStream := "A", WorkPackage := "P2", Start := .date 0, End := .date 2,
    WorkingDays := .na, PercentComplete := .num 50, IsMilestone := .bool false,
    MilestoneGroup := .na }

/-- Concrete example row: a row whose Start does not parse. -/
def rowBadStart : Row :=
  { WorkStream := "A", WorkPackage := "P3", Start := .bad, End := .date 2,
    WorkingDays := .na, PercentComplete := .num 50, IsMilestone := .bool false,
    MilestoneGroup := .na }

/-- The normalized table as the milestone and assembly stages see it
(src/timeline_logic.py state of `df` after line 170). -/
def engineNorm (rows : List Row) : List NRow :=
  markMilestones (normalizeTable rows)

/-- The member rows of group label `g` (the rows `groupby` hands to the
loop body for key `g` at src/timeline_logic.py line 180). -/
def groupMembers (rows : List Row) (g : String) : List NRow :=
  (wpRows (engineNorm rows)).filter (fun r => r.MilestoneGroup == g)

/-- Stated from the claim (spec section 4.4): a group qualifies when it
has members, every member's `PercentComplete` resolves, and the minimum
(equivalently: each value) is at least 100. -/
def groupQualifies (rows : List Row) (g : String) : Bool :=
  !(groupMembers rows g).isEmpty &&
    (groupMembers rows g).all (fun r =>
      match r.PercentComplete with
      | some p => decide (100 ≤ p)
      | none => false)

/-- Concrete example row: both `End` (2024-01-03, day 2) and
`WorkingDays` (5) present. -/
def rowBoth : Row :=
  { WorkStream := "A", WorkPackage := "PB", Start := .date 0, End := .date 2,
    WorkingDays := .num 5, PercentComplete := .num 0, IsMilestone := .bool false,
    MilestoneGroup := .na }

/-- Concrete example rows: a complete milestone group "G1" of two members. -/
def rowsGroup : List Row :=
  [{ WorkStream := "WS1", WorkPackage := "TA", Start := .date 0, End := .date 4,
     WorkingDays := .na, PercentComplete := .num 100, IsMilestone := .bool false,
     MilestoneGroup := .txt "G1" },
   { WorkStream := "WS1", WorkPackage := "TB", Start := .date 2, End := .date 7,
     WorkingDays := .na, PercentComplete := .num 100, IsMilestone := .bool false,
     MilestoneGroup := .txt "G1" }]

/-- Concrete example rows: two work streams, a date tie inside stream "A". -/
def rowsSort : List Row :=
  [{ WorkStream := "B", WorkPackage := "b1", Start := .date 5, End := .date 6,
     WorkingDays := .na, PercentComplete := .na, IsMilestone := .na,
     MilestoneGroup := .na },
   { WorkStream := "A", WorkPackage := "a2", Start := .date 3, End := .date 4,
     WorkingDays := .na, PercentComplete := .na, IsMilestone := .na,
     MilestoneGroup := .na },
   { WorkStream := "A", WorkPackage := "a1", Start := .date 3, End := .date 3,
     WorkingDays := .na, PercentComplete := .na, IsMilestone := .na,
     MilestoneGroup := .na }]

lemma rollForward_mod (d : Int) : rollForward d % 7 < 5 := by
  unfold rollForward
  split_ifs <;> omega

lemma rollForward_ge (d : Int) : d ≤ rollForward d := by
  unfold rollForward
  split_ifs <;> omega

/-- Closed form of business-day advancement from a business day: advancing
`n` business days from weekday `w` adds `n` days plus two days for every
weekend crossed. -/
lemma advanceBDays_closed : ∀ (n : Nat) (d : Int), d % 7 < 5 →
    advanceBDays d n = d + n + 2 * ((d % 7 + n) / 5) := by
  intro n
  induction n with
  | zero =>
    intro d hd
    have h0 : 0 ≤ d % 7 := Int.emod_nonneg d (by omega)
    simp only [advanceBDays, Nat.cast_zero]
    omega
  | succ k ih =>
    intro d hd
    have h0 : 0 ≤ d % 7 := Int.emod_nonneg d (by omega)
    simp only [advanceBDays, rollForward]
    split_ifs with hA hB
    · rw [ih (d + 1 + 2) (by omega)]
      push_cast
      omega
    · rw [ih (d + 1 + 1) (by omega)]
      push_cast
      omega
    · rw [ih (d + 1) (by omega)]
      push_cast
      omega

/-- On a business-day start, the pandas offset equals step-by-step
advancement. -/
lemma bdayAdd_eq_advance (d : Int) (hd : d % 7 < 5) (n : Nat) :
    bdayAdd d n = advanceBDays d n := by
  rw [advanceBDays_closed n d hd]
  have h0 : 0 ≤ d % 7 := Int.emod_nonneg d (by omega)
  simp only [bdayAdd, Nat.cast_zero, Nat.cast_add, Nat.cast_one, Nat.cast_ofNat]
  split_ifs <;> omega

/-- On a weekend start, `BusinessDay(0)` only rolls forward. -/
lemma bdayAdd_weekend_zero (d : Int) (hd : 5 ≤ d % 7) :
    bdayAdd d 0 = rollForward d := by
  have h1 : d % 7 < 7 := Int.emod_lt_of_pos d (by omega)
  simp only [bdayAdd, rollForward, Nat.cast_zero, Nat.cast_add, Nat.cast_one, Nat.cast_ofNat]
  split_ifs <;> first
    | omega
    | exact False.elim (by assumption)
    | exact absurd trivial (by assumption)

/-- On a weekend start, the roll forward to the next business day consumes
one of the advanced days: `d + BusinessDay(n+1)` is the next business day
advanced a further `n` business days. -/
lemma bdayAdd_weekend_succ (d : Int) (hd : 5 ≤ d % 7) (n : Nat) :
    bdayAdd d (n + 1) = advanceBDays (rollForward d) n := by
  have h1 : d % 7 < 7 := Int.emod_lt_of_pos d (by omega)
  rw [advanceBDays_closed n (rollForward d) (rollForward_mod d)]
  simp only [bdayAdd, rollForward, Nat.cast_zero, Nat.cast_add, Nat.cast_one, Nat.cast_ofNat]
  split_ifs <;> first
    | omega
    | exact False.elim (by assumption)
    | exact absurd trivial (by assumption)

lemma advanceBDays_ge (n : Nat) : ∀ d : Int, d ≤ advanceBDays d n := by
  induction n with
  | zero => intro d; simp [advanceBDays]
  | succ k ih =>
    intro d
    have h1 := ih (rollForward (d + 1))
    have h2 := rollForward_ge (d + 1)
    simp only [advanceBDays]
    omega

/-- The pandas offset never moves a date backward (for `n ≥ 0`). -/
lemma bdayAdd_ge (d : Int) (n : Nat) : d ≤ bdayAdd d n := by
  by_cases hd : d % 7 < 5
  · rw [bdayAdd_eq_advance d hd n]
    exact advanceBDays_ge n d
  · match n with
    | 0 =>
      rw [bdayAdd_weekend_zero d (by omega)]
      exact rollForward_ge d
    | Nat.succ k =>
      rw [bdayAdd_weekend_succ d (by omega) k]
      have h1 := advanceBDays_ge k (rollForward d)
      have h2 := rollForward_ge d
      omega

lemma calculate_end_date_isSome (s : Int) (v : WDVal) :
    calculate_end_date (some s) v ≠ none := by
  unfold calculate_end_date
  cases v with
  | na => simp
  | num q => dsimp only; split_ifs <;> simp
  | txt t =>
    dsimp only
    cases pyIntOfString t with
    | none => simp
    | some z => dsimp only; split_ifs <;> simp

lemma calculate_end_date_ge (s x : Int) (v : WDVal)
    (h : calculate_end_date (some s) v = some x) : s ≤ x := by
  unfold calculate_end_date at h
  cases v with
  | na => rw [Option.some_inj] at h; omega
  | num q =>
    dsimp only at h
    split_ifs at h with hq
    · rw [Option.some_inj] at h; omega
    · rw [Option.some_inj] at h
      have := bdayAdd_ge s (truncToward0 q - 1).toNat
      omega
  | txt t =>
    dsimp only at h
    cases hp : pyIntOfString t with
    | none => rw [hp] at h; rw [Option.some_inj] at h; omega
    | some z =>
      rw [hp] at h
      dsimp only at h
      split_ifs at h with hz
      · rw [Option.some_inj] at h; omega
      · rw [Option.some_inj] at h
        have := bdayAdd_ge s (z - 1).toNat
        omega

lemma fillEnd_fields (r : CRow) :
    (fillEnd r).WorkStream = r.WorkStream ∧ (fillEnd r).WorkPackage = r.WorkPackage ∧
    (fillEnd r).Start = r.Start ∧ (fillEnd r).WorkingDays = r.WorkingDays ∧
    (fillEnd r).PercentComplete = r.PercentComplete ∧
    (fillEnd r).IsMilestone = r.IsMilestone ∧
    (fillEnd r).MilestoneGroup = r.MilestoneGroup := by
  unfold fillEnd
  split_ifs <;> exact ⟨rfl, rfl, rfl, rfl, rfl, rfl, rfl⟩

lemma normalizeRow_start (r : Row) : (normalizeRow r).Start = toDatetime r.Start := by
  show (fillEndStart (fillEnd (coerceRow r))).Start = toDatetime r.Start
  show (fillEnd (coerceRow r)).Start = toDatetime r.Start
  rw [(fillEnd_fields (coerceRow r)).2.2.1]
  rfl

lemma normalizeRow_fixed (r : Row) :
    (normalizeRow r).WorkStream = r.WorkStream ∧
    (normalizeRow r).WorkPackage = r.WorkPackage ∧
    (normalizeRow r).IsMilestone = engine_is_milestone r.IsMilestone ∧
    (normalizeRow r).MilestoneGroup = toGroupStr r.MilestoneGroup ∧
    (normalizeRow r).PercentComplete = toNumeric r.PercentComplete := by
  have h := fillEnd_fields (coerceRow r)
  exact ⟨h.1, h.2.1, h.2.2.2.2.2.1, h.2.2.2.2.2.2, h.2.2.2.2.1⟩

lemma normalizeRow_end_or (r : Row) :
    (normalizeRow r).End = ((fillEnd (coerceRow r)).End).or (toDatetime r.Start) := by
  show (fillEndStart (fillEnd (coerceRow r))).End = _
  unfold fillEndStart
  rw [(fillEnd_fields (coerceRow r)).2.2.1]
  rfl

lemma normalizeRow_end_ne (r : Row) (s : Int) (hs : toDatetime r.Start = some s) :
    (normalizeRow r).End ≠ none := by
  rw [normalizeRow_end_or, hs]
  cases (fillEnd (coerceRow r)).End <;> simp [Option.or]

lemma normalizeRow_duration (r : Row) :
    (normalizeRow r).Duration
      = calculate_duration (toDatetime r.Start) ((normalizeRow r).End) := by
  show calculate_duration ((fillEndStart (fillEnd (coerceRow r))).Start) _ = _
  have h1 : (fillEndStart (fillEnd (coerceRow r))).Start = toDatetime r.Start := by
    show (fillEnd (coerceRow r)).Start = _
    rw [(fillEnd_fields (coerceRow r)).2.2.1]
    rfl
  rw [h1]
  rfl

lemma normalizeRow_end (r : Row) (s : Int) (hs : toDatetime r.Start = some s) :
    (normalizeRow r).End =
      (match toDatetime r.End with
       | some e => some e
       | none =>
         match toNumeric r.WorkingDays with
         | some w => if 0 < w then calculate_end_date (some s) (.num w) else some s
         | none => some s) := by
  rw [normalizeRow_end_or, hs]
  unfold fillEnd
  cases hE : toDatetime r.End with
  | some e =>
    have hcE : (coerceRow r).End = some e := hE
    rw [if_neg]
    · simp [coerceRow, hE, Option.or]
    · simp [hcE]
  | none =>
    have hcE : (coerceRow r).End = none := hE
    cases hW : toNumeric r.WorkingDays with
    | none =>
      have hcW : (coerceRow r).WorkingDays = none := hW
      rw [if_neg]
      · simp [coerceRow, hE, Option.or]
      · simp [hcW, wdPos]
    | some w =>
      have hcW : (coerceRow r).WorkingDays = some w := hW
      by_cases hw : 0 < w
      · rw [if_pos]
        · have hcS : (coerceRow r).Start = some s := hs
          simp only [hcE, hcW, hcS, wdValOf]
          cases hcd : calculate_end_date (some s) (.num w) with
          | none => exact absurd hcd (calculate_end_date_isSome s (.num w))
          | some x => simp [hw, Option.or]
        · exact ⟨hcE, by simp [hcW, wdPos, hw]⟩
      · rw [if_neg]
        · simp [coerceRow, hE, Option.or, hw]
        · simp [hcW, wdPos, hw]

/-- C5: `calculate_duration` returns 0 when either date is missing or the
end precedes the start, and otherwise the inclusive calendar-day count
`(end - start) + 1`; the result is never negative and a same-day task has
duration 1. -/
theorem calculate_duration_spec :
    (∀ oe, calculate_duration none oe = 0) ∧
    (∀ os, calculate_duration os none = 0) ∧
    (∀ s e : Int, e < s → calculate_duration (some s) (some e) = 0) ∧
    (∀ s e : Int, s ≤ e → calculate_duration (some s) (some e) = (e - s) + 1) ∧
    (∀ os oe, 0 ≤ calculate_duration os oe) ∧
    (∀ s : Int, calculate_duration (some s) (some s) = 1) := by
  refine ⟨fun oe => by cases oe <;> rfl, fun os => by cases os <;> rfl,
    fun s e h => by simp [calculate_duration, h], fun s e h => ?_, fun os oe => ?_,
    fun s => by simp [calculate_duration]⟩
  · simp only [calculate_duration]
    rw [if_neg (by omega)]
  · cases os with
    | none => simp [calculate_duration]
    | some s =>
      cases oe with
      | none => simp [calculate_duration]
      | some e =>
        simp only [calculate_duration]
        split_ifs <;> omega

/-- C2 counterexample: on the Saturday 2024-01-06 (day 5) with 2 working
days, the code (`start + BusinessDay(1)`) lands on Monday 2024-01-08
(day 7), while the claim's reading (roll the weekend start forward to
Monday, then advance 1 further business day) lands on Tuesday 2024-01-09
(day 8). -/
theorem calculate_end_date_weekend_cex :
    calculate_end_date (some 5) (.num 2) = some 7 ∧
    claimProjectEnd (some 5) (.num 2) = some 8 ∧
    (7 : Int) ≠ 8 := by decide

/-- C2 (amended): `calculate_end_date` returns the start unchanged when the
start is missing, the working days are missing, non-numeric, or truncate
toward zero to a value at most 0; a truncated value of 1 yields the next
business day at or after the start (the start itself when it is a business
day); from a business-day start it advances `w - 1` business days; from a
weekend start the roll forward to the next business day consumes one of the
advanced days, so the result is the next business day advanced by `w - 2`
further business days. -/
theorem calculate_end_date_spec (s : Int) (q : ℚ) (t : String) :
    (calculate_end_date none (.num q) = none) ∧
    (calculate_end_date (some s) .na = some s) ∧
    (truncToward0 q ≤ 0 → calculate_end_date (some s) (.num q) = some s) ∧
    (pyIntOfString t = none → calculate_end_date (some s) (.txt t) = some s) ∧
    (truncToward0 q = 1 → calculate_end_date (some s) (.num q) = some (rollForward s)) ∧
    (s % 7 < 5 → 0 < truncToward0 q →
        calculate_end_date (some s) (.num q)
          = some (advanceBDays s (truncToward0 q - 1).toNat)) ∧
    (5 ≤ s % 7 → 1 < truncToward0 q →
        calculate_end_date (some s) (.num q)
          = some (advanceBDays (rollForward s) (truncToward0 q - 2).toNat)) := by
  refine ⟨rfl, rfl, ?_, ?_, ?_, ?_, ?_⟩
  · intro h
    simp only [calculate_end_date]
    rw [if_pos h]
  · intro h
    simp only [calculate_end_date, h]
  · intro h
    simp only [calculate_end_date]
    rw [if_neg (by omega)]
    have h1 : (truncToward0 q - 1).toNat = 0 := by omega
    rw [h1]
    by_cases hs5 : s % 7 < 5
    · have h2 : rollForward s = s := by unfold rollForward; split_ifs <;> omega
      rw [bdayAdd_eq_advance s hs5 0, h2]
      rfl
    · rw [bdayAdd_weekend_zero s (by omega)]
  · intro hs5 hq
    simp only [calculate_end_date]
    rw [if_neg (by omega)]
    rw [bdayAdd_eq_advance s hs5]
  · intro hs5 hq
    simp only [calculate_end_date]
    rw [if_neg (by omega)]
    have h1 : (truncToward0 q - 1).toNat = (truncToward0 q - 2).toNat + 1 := by omega
    rw [h1, bdayAdd_weekend_succ s (by omega)]

/-- C1: for a record whose `Start` parses, the resolved `End` is the
parsed `End` when it is present and valid (even when `WorkingDays` is also
present: `End` wins); otherwise `calculate_end_date` of the positive
`WorkingDays`; otherwise the `Start` itself; and `Duration` is always
derived from that resolved `End`, so a row with both `End` and
`WorkingDays` gets the `End`-derived duration. -/
theorem end_resolution_precedence (r : Row) (s : Int)
    (hs : toDatetime r.Start = some s) :
    (normalizeRow r).End =
      (match toDatetime r.End with
       | some e => some e
       | none =>
         match toNumeric r.WorkingDays with
         | some w => if 0 < w then calculate_end_date (some s) (.num w) else some s
         | none => some s) ∧
    (normalizeRow r).Duration = calculate_duration (some s) ((normalizeRow r).End) := by
  refine ⟨normalizeRow_end r s hs, ?_⟩
  rw [normalizeRow_duration, hs]

/-- C1 witness: the concrete row with `Start` 2024-01-01, `End` 2024-01-03
and `WorkingDays` 5: the resolved `End` is day 2 (the explicit `End`), not
the `WorkingDays` projection, and the duration follows it. -/
theorem end_resolution_precedence_witness :
    (normalizeRow rowBoth).End = some 2 ∧
    (normalizeRow rowBoth).Duration = calculate_duration (some 0) ((normalizeRow rowBoth).End) :=
  end_resolution_precedence rowBoth 0 (by decide)

/-- C8 counterexample: the row with `Start` 2024-01-10 (day 9) and explicit
`End` 2024-01-05 (day 4) survives `Start` validation, yet its normalized
entry has `ResolvedEnd < ResolvedStart` and `Duration = 0`, not `>= 1`. -/
theorem duration_invariant_cex :
    toDatetime rowEndBeforeStart.Start = some 9 ∧
    (normalizeRow rowEndBeforeStart).End = some 4 ∧
    (normalizeRow rowEndBeforeStart).Duration = 0 := by decide

/-- C8 (amended): for a surviving record whose explicit `End` is absent or
unparseable, the resolved `End` is at least the `Start` and
`Duration = (End - Start) + 1 >= 1`; the same holds when an explicit `End`
parses to a date not before `Start`; but a record whose explicit `End`
parses to a date before `Start` keeps that earlier `End` and gets
`Duration = 0` (and is then excluded from the regular task output). -/
theorem duration_invariant_amended (r : Row) (s : Int)
    (hs : toDatetime r.Start = some s) :
    (toDatetime r.End = none →
      ∃ e, (normalizeRow r).End = some e ∧ s ≤ e ∧
        (normalizeRow r).Duration = (e - s) + 1 ∧ 1 ≤ (normalizeRow r).Duration) ∧
    (∀ e, toDatetime r.End = some e → s ≤ e →
      (normalizeRow r).End = some e ∧
        (normalizeRow r).Duration = (e - s) + 1 ∧ 1 ≤ (normalizeRow r).Duration) ∧
    (∀ e, toDatetime r.End = some e → e < s →
      (normalizeRow r).End = some e ∧ (normalizeRow r).Duration = 0) := by
  have hend := normalizeRow_end r s hs
  have hdur := normalizeRow_duration r
  rw [hs] at hdur
  refine ⟨?_, ?_, ?_⟩
  · intro hE
    rw [hE] at hend
    have hge : ∃ e, (normalizeRow r).End = some e ∧ s ≤ e := by
      cases hW : toNumeric r.WorkingDays with
      | none => rw [hW] at hend; exact ⟨s, hend, le_refl s⟩
      | some w =>
        rw [hW] at hend
        dsimp only at hend
        by_cases hw : 0 < w
        · rw [if_pos hw] at hend
          cases hcd : calculate_end_date (some s) (.num w) with
          | none => exact absurd hcd (calculate_end_date_isSome s (.num w))
          | some x =>
            rw [hcd] at hend
            exact ⟨x, hend, calculate_end_date_ge s x (.num w) hcd⟩
        · rw [if_neg hw] at hend
          exact ⟨s, hend, le_refl s⟩
    obtain ⟨e, he, hse⟩ := hge
    refine ⟨e, he, hse, ?_, ?_⟩
    · rw [hdur, he]
      simp only [calculate_duration]
      rw [if_neg (by omega)]
    · rw [hdur, he]
      simp only [calculate_duration]
      rw [if_neg (by omega)]
      omega
  · intro e hE hse
    rw [hE] at hend
    refine ⟨hend, ?_, ?_⟩
    · rw [hdur, hend]
      simp only [calculate_duration]
      rw [if_neg (by omega)]
    · rw [hdur, hend]
      simp only [calculate_duration]
      rw [if_neg (by omega)]
      omega
  · intro e hE hes
    rw [hE] at hend
    refine ⟨hend, ?_⟩
    rw [hdur, hend]
    simp [calculate_duration, hes]

/-- C8 witness: the plain row (`Start` day 0, `End` day 2) satisfies the
amended invariant with duration 3. -/
theorem duration_invariant_amended_witness :
    toDatetime rowPlain.Start = some 0 ∧
    ((toDatetime rowPlain.End = none →
      ∃ e, (normalizeRow rowPlain).End = some e ∧ 0 ≤ e ∧
        (normalizeRow rowPlain).Duration = (e - 0) + 1 ∧ 1 ≤ (normalizeRow rowPlain).Duration) ∧
    (∀ e, toDatetime rowPlain.End = some e → 0 ≤ e →
      (normalizeRow rowPlain).End = some e ∧
        (normalizeRow rowPlain).Duration = (e - 0) + 1 ∧ 1 ≤ (normalizeRow rowPlain).Duration) ∧
    (∀ e, toDatetime rowPlain.End = some e → e < 0 →
      (normalizeRow rowPlain).End = some e ∧ (normalizeRow rowPlain).Duration = 0)) :=
  ⟨by decide, duration_invariant_amended rowPlain 0 (by decide)⟩

lemma markOne_fields (r : NRow) :
    (markOne r).WorkStream = r.WorkStream ∧ (markOne r).WorkPackage = r.WorkPackage ∧
    (markOne r).Start = r.Start ∧ (markOne r).End = r.End ∧
    (markOne r).WorkingDays = r.WorkingDays ∧ (markOne r).PercentComplete = r.PercentComplete ∧
    (markOne r).IsMilestone = r.IsMilestone ∧ (markOne r).MilestoneGroup = r.MilestoneGroup ∧
    (markOne r).Duration = r.Duration := by
  unfold markOne
  split_ifs <;> exact ⟨rfl, rfl, rfl, rfl, rfl, rfl, rfl, rfl, rfl⟩

lemma normalizeTable_cons (r : Row) (rest : List Row) :
    normalizeTable (r :: rest) =
      if (toDatetime r.Start).isSome then normalizeRow r :: normalizeTable rest
      else normalizeTable rest := by
  unfold normalizeTable
  simp only [List.map_cons, List.filter_cons]
  have hc : (coerceRow r).Start = toDatetime r.Start := rfl
  rw [hc]
  by_cases h : (toDatetime r.Start).isSome
  · simp only [h, if_true]
    try rfl
  · simp only [h, Bool.false_eq_true, if_false]
    try rfl

lemma normalizeTable_mem {rows : List Row} {x : NRow} (hx : x ∈ normalizeTable rows) :
    ∃ r, r ∈ rows ∧ (toDatetime r.Start).isSome ∧ x = normalizeRow r := by
  induction rows with
  | nil => simp [normalizeTable] at hx
  | cons r rest ih =>
    rw [normalizeTable_cons] at hx
    by_cases h : (toDatetime r.Start).isSome
    · rw [if_pos h] at hx
      rcases List.mem_cons.mp hx with h1 | h1
      · exact ⟨r, List.mem_cons_self r rest, h, h1⟩
      · obtain ⟨s, hs1, hs2, hs3⟩ := ih h1
        exact ⟨s, List.mem_cons_of_mem r hs1, hs2, hs3⟩
    · rw [if_neg h] at hx
      obtain ⟨s, hs1, hs2, hs3⟩ := ih hx
      exact ⟨s, List.mem_cons_of_mem r hs1, hs2, hs3⟩

lemma normalizeTable_start_end {rows : List Row} {x : NRow} (hx : x ∈ normalizeTable rows) :
    x.Start ≠ none ∧ x.End ≠ none := by
  obtain ⟨r, hr, hs, he⟩ := normalizeTable_mem hx
  obtain ⟨s, hsv⟩ := Option.isSome_iff_exists.mp hs
  subst he
  constructor
  · rw [normalizeRow_start, hsv]
    simp
  · exact normalizeRow_end_ne r s hsv

lemma engineNorm_mem {rows : List Row} {x : NRow} (hx : x ∈ engineNorm rows) :
    ∃ y, y ∈ normalizeTable rows ∧ x = markOne y := by
  unfold engineNorm markMilestones at hx
  rw [List.mem_map] at hx
  obtain ⟨y, hy, hxy⟩ := hx
  exact ⟨y, hy, hxy.symm⟩

lemma process_post_core (rows : List Row) :
    (markMilestones (normalizeTable rows)).map (fun r => (r.WorkStream, r.WorkPackage))
      = (rows.filter (fun r => (toDatetime r.Start).isSome)).map
          (fun r => (r.WorkStream, r.WorkPackage)) := by
  induction rows with
  | nil => rfl
  | cons r rest ih =>
    rw [normalizeTable_cons, List.filter_cons]
    by_cases h : (toDatetime r.Start).isSome
    · simp only [h, if_true]
      unfold markMilestones at ih ⊢
      rw [List.map_cons, List.map_cons, List.map_cons, ih]
      have h1 := (markOne_fields (normalizeRow r)).1
      have h2 := (markOne_fields (normalizeRow r)).2.1
      have h3 := (normalizeRow_fixed r).1
      have h4 := (normalizeRow_fixed r).2.1
      rw [h1, h2, h3, h4]
    · simp only [h, Bool.false_eq_true, if_false]
      exact ih

/-- C10 counterexample: the engine removes the second row (invalid
`Start`) from the caller's table in place, so the table the caller passed
in has two rows before the call and one after it. -/
theorem process_mutates_cex :
    [rowPlain, rowBadStart].length = 2 ∧
    (process_post [rowPlain, rowBadStart]).length = 1 := by decide

/-- C10 (amended): `process_timeline_data` mutates the caller's table in
place: it coerces the columns, adds the derived `Duration`/`Status`
columns, overwrites `Status` on explicit-milestone rows and drops every
row whose `Start` fails to parse from the caller's structure.  After a
call the caller's table holds exactly the rows whose `Start` parsed (in
order, with `WorkStream`/`WorkPackage` preserved), each fully resolved
(`Start` and `End` both set).  A caller that needs the input unchanged
must pass a copy, as the repository's own tests do. -/
theorem process_post_spec (rows : List Row) :
    (process_post rows).map (fun r => (r.WorkStream, r.WorkPackage))
      = (rows.filter (fun r => (toDatetime r.Start).isSome)).map
          (fun r => (r.WorkStream, r.WorkPackage)) ∧
    (process_post rows).length
      = (rows.filter (fun r => (toDatetime r.Start).isSome)).length ∧
    (∀ x ∈ process_post rows, x.Start ≠ none ∧ x.End ≠ none) := by
  unfold process_post
  split_ifs with h0
  · subst h0
    exact ⟨rfl, rfl, by intro x hx; simp at hx⟩
  · refine ⟨process_post_core rows, ?_, ?_⟩
    · have h := congrArg List.length (process_post_core rows)
      simpa using h
    · intro x hx
      unfold markMilestones at hx
      rw [List.mem_map] at hx
      obtain ⟨y, hy, hxy⟩ := hx
      have hse := normalizeTable_start_end hy
      subst hxy
      rw [(markOne_fields y).2.2.1, (markOne_fields y).2.2.2.1]
      exact hse

/-- C7 counterexample: the engine's own coercion at
src/timeline_logic.py lines 106-111 sends the raw string "false" to
`true` (it is not in the replace map, and `astype(bool)` truthifies any
non-empty string), although its case-insensitive form is not in the
truthy set; the loader's coercion sends it to `false`. -/
theorem engine_coercion_cex :
    engine_is_milestone (.txt "false") = true ∧
    lowerStr (pyStr (.txt "false")) = "false" ∧
    loader_true_values.contains "false" = false ∧
    loader_is_milestone (.txt "false") = false := by decide

/-- C7 (amended): the input loader's coercion (src/input_parser.py lines
113-119) yields true exactly when the value is present and its Python
string form, lowercased, is one of "true"/"yes"/"1"/"t"/"y"; every other
value, including a missing one, is coerced to false.  The engine's own
re-coercion maps the booleans the loader produces to themselves, but
applied directly to raw strings it follows its replace map and Python
truthiness instead (see the counterexample). -/
theorem loader_coercion_spec (c : BCell) :
    (loader_is_milestone c = true ↔
      (c ≠ BCell.na ∧ loader_true_values.contains (lowerStr (pyStr c)) = true)) ∧
    engine_is_milestone (.bool (loader_is_milestone c)) = loader_is_milestone c := by
  constructor
  · cases c with
    | na => decide
    | txt s => simp [loader_is_milestone]
    | int z => simp [loader_is_milestone]
    | bool b => simp [loader_is_milestone]
  · cases hb : loader_is_milestone c <;> rfl

lemma lexLe_nil (b : List Char) : lexLe [] b = true := by
  cases b <;> rfl

lemma lexLe_total : ∀ a b : List Char, lexLe a b = true ∨ lexLe b a = true := by
  intro a
  induction a with
  | nil => intro b; left; exact lexLe_nil b
  | cons c cs ih =>
    intro b
    cases b with
    | nil => right; exact lexLe_nil _
    | cons d ds =>
      rcases lt_trichotomy c d with h | h | h
      · left; simp [lexLe, h]
      · subst h
        rcases ih ds with h2 | h2
        · left; simp [lexLe, lt_irrefl, h2]
        · right; simp [lexLe, lt_irrefl, h2]
      · right; simp [lexLe, h]

lemma lexLe_trans : ∀ a b c : List Char,
    lexLe a b = true → lexLe b c = true → lexLe a c = true := by
  intro a
  induction a with
  | nil => intro b c _ _; exact lexLe_nil c
  | cons x xs ih =>
    intro b c hab hbc
    cases b with
    | nil => simp [lexLe] at hab
    | cons y ys =>
      cases c with
      | nil => simp [lexLe] at hbc
      | cons z zs =>
        rcases lt_trichotomy x y with h1 | h1 | h1
        · rcases lt_trichotomy y z with h2 | h2 | h2
          · simp [lexLe, lt_trans h1 h2]
          · subst h2; simp [lexLe, h1]
          · simp [lexLe, asymm h2, h2] at hbc
        · subst h1
          rcases lt_trichotomy x z with h2 | h2 | h2
          · simp [lexLe, h2]
          · subst h2
            simp only [lexLe, lt_irrefl, if_false] at hab hbc ⊢
            exact ih ys zs hab hbc
          · simp [lexLe, asymm h2, h2] at hbc
        · simp [lexLe, asymm h1, h1] at hab

lemma lexLe_antisymm : ∀ a b : List Char,
    lexLe a b = true → lexLe b a = true → a = b := by
  intro a
  induction a with
  | nil =>
    intro b _ h2
    cases b with
    | nil => rfl
    | cons d ds => simp [lexLe] at h2
  | cons x xs ih =>
    intro b h1 h2
    cases b with
    | nil => simp [lexLe] at h1
    | cons y ys =>
      rcases lt_trichotomy x y with h | h | h
      · simp [lexLe, asymm h, h] at h2
      · subst h
        simp only [lexLe, lt_irrefl, if_false] at h1 h2
        rw [ih ys h1 h2]
      · simp [lexLe, asymm h, h] at h1

lemma odLe_total (a b : Option Int) : odLe a b = true ∨ odLe b a = true := by
  cases a <;> cases b <;> simp [odLe] <;> omega

lemma odLe_trans (a b c : Option Int) :
    odLe a b = true → odLe b c = true → odLe a c = true := by
  cases a <;> cases b <;> cases c <;> simp [odLe] <;> omega

lemma entryLeB_total (a b : SEntry) : (entryLeB a b || entryLeB b a) = true := by
  unfold entryLeB
  by_cases h : a.WorkStream = b.WorkStream
  · rw [if_pos h, if_pos h.symm]
    rcases odLe_total (sortDate a) (sortDate b) with h2 | h2 <;> simp [h2]
  · rw [if_neg h, if_neg (fun e => h e.symm)]
    rcases lexLe_total a.WorkStream.data b.WorkStream.data with h2 | h2 <;> simp [h2]

lemma entryLeB_trans (a b c : SEntry) :
    entryLeB a b = true → entryLeB b c = true → entryLeB a c = true := by
  unfold entryLeB
  by_cases hab : a.WorkStream = b.WorkStream <;>
    by_cases hbc : b.WorkStream = c.WorkStream
  · rw [if_pos hab, if_pos hbc, if_pos (hab.trans hbc)]
    exact odLe_trans _ _ _
  · rw [if_pos hab, if_neg hbc, if_neg (fun h => hbc (hab.symm.trans h))]
    intro _ h2
    rw [hab]
    exact h2
  · rw [if_neg hab, if_pos hbc, if_neg (fun h => hab (h.trans hbc.symm))]
    intro h1 _
    rw [← hbc]
    exact h1
  · rw [if_neg hab, if_neg hbc]
    intro h1 h2
    by_cases hac : a.WorkStream = c.WorkStream
    · exfalso
      apply hab
      exact String.ext (lexLe_antisymm a.WorkStream.data b.WorkStream.data h1
        (by rw [hac]; exact h2))
    · rw [if_neg hac]
      exact lexLe_trans _ _ _ h1 h2

lemma assembleRows_nil_of_table_nil {rows : List Row} (h : normalizeTable rows = []) :
    assembleRows rows = [] := by
  unfold assembleRows
  rw [h]
  rfl

/-- C6: the returned sequence is sorted ascending by `WorkStream` and then
by the (always re-parseable) date key; the sort is the stable sort of the
assembled pre-sort sequence, so it is a permutation of it and every
already-ordered subsequence of the assembled sequence (in particular any
run of key ties) keeps its relative order in the output; `NaT` keys, were
they possible, would order after every valid date (`odLe`). -/
theorem output_sorted_stable (odf : Option (List Row)) :
    List.Pairwise (fun a b => entryLeB a b = true) (process_timeline_data odf) ∧
    (∀ rows, odf = some rows →
      (process_timeline_data odf).Perm (assembleRows rows)) ∧
    (∀ rows, odf = some rows → ∀ c : List SEntry,
      List.Pairwise (fun a b => entryLeB a b = true) c →
      c.Sublist (assembleRows rows) → c.Sublist (process_timeline_data odf)) := by
  refine ⟨?_, ?_, ?_⟩
  · cases odf with
    | none => exact List.Pairwise.nil
    | some rows =>
      show List.Pairwise _ (processRows rows)
      unfold processRows
      split_ifs with h0 h1 h2
      · exact List.Pairwise.nil
      · exact List.Pairwise.nil
      · exact List.Pairwise.nil
      · exact List.sorted_mergeSort entryLeB_trans entryLeB_total (assembleRows rows)
  · intro rows heq
    rw [heq]
    show (processRows rows).Perm (assembleRows rows)
    unfold processRows
    split_ifs with h0 h1 h2
    · subst h0; exact List.Perm.refl _
    · rw [assembleRows_nil_of_table_nil h1]
    · rw [h2]
    · exact List.mergeSort_perm (assembleRows rows) entryLeB
  · intro rows heq c hc hsub
    rw [heq]
    show c.Sublist (processRows rows)
    unfold processRows
    split_ifs with h0 h1 h2
    · subst h0; exact hsub
    · rw [← assembleRows_nil_of_table_nil h1]; exact hsub
    · rw [← h2]; exact hsub
    · exact List.sublist_mergeSort entryLeB_trans entryLeB_total hc hsub


lemma normalizeTable_nil_of_all_bad {rows : List Row}
    (h : ∀ r ∈ rows, toDatetime r.Start = none) : normalizeTable rows = [] := by
  induction rows with
  | nil => rfl
  | cons r rest ih =>
    rw [normalizeTable_cons]
    rw [if_neg (by simp [h r (List.mem_cons_self r rest)])]
    exact ih (fun x hx => h x (List.mem_cons_of_mem r hx))

lemma assembleRows_mem {rows : List Row} {e : SEntry} (he : e ∈ assembleRows rows) :
    (e.IsGeneratedMilestone = false ∧ 0 < e.Duration ∧ e.Status ≠ "milestone") ∨
    (e.IsGeneratedMilestone = true ∧ e.Duration = 0 ∧ e.Status = "milestone") := by
  unfold assembleRows at he
  rcases List.mem_append.mp he with h | h
  · left
    unfold regularEntries at h
    rw [List.mem_filterMap] at h
    obtain ⟨r, _, hfr⟩ := h
    unfold regularOne at hfr
    cases hS : r.Start with
    | none => rw [hS] at hfr; simp at hfr
    | some s =>
      rw [hS] at hfr
      dsimp only at hfr
      split_ifs at hfr with hcond
      rw [Option.some_inj] at hfr
      subst hfr
      exact ⟨rfl, hcond.2, hcond.1⟩
  · right
    unfold milestoneEntries at h
    rw [List.mem_map] at h
    obtain ⟨m, _, hme⟩ := h
    subst hme
    exact ⟨rfl, rfl, rfl⟩

/-- C9: the engine never fails on a bad row (the embedding is a total
function); a `None` table, an empty table, and a table whose every row is
dropped for an invalid `Start` all yield the empty sequence, not an error;
and every entry that is produced is fully resolved: either a regular task
entry with a positive duration and a non-"milestone" status, or a
milestone entry with duration 0 and status "milestone" — never a partial
mixture. -/
theorem process_graceful (odf : Option (List Row)) :
    process_timeline_data none = [] ∧
    process_timeline_data (some []) = [] ∧
    (∀ rows : List Row, (∀ r ∈ rows, toDatetime r.Start = none) →
      process_timeline_data (some rows) = []) ∧
    (∀ e ∈ process_timeline_data odf,
      (e.IsGeneratedMilestone = false ∧ 0 < e.Duration ∧ e.Status ≠ "milestone") ∨
      (e.IsGeneratedMilestone = true ∧ e.Duration = 0 ∧ e.Status = "milestone")) := by
  refine ⟨rfl, rfl, ?_, ?_⟩
  · intro rows h
    show processRows rows = []
    unfold processRows
    split_ifs with h0 h1 h2
    · rfl
    · rfl
    · rfl
    · exact absurd (normalizeTable_nil_of_all_bad h) h1
  · intro e he
    cases odf with
    | none => simp [process_timeline_data] at he
    | some rows =>
      have he2 : e ∈ processRows rows := he
      unfold processRows at he2
      split_ifs at he2 with h0 h1 h2
      · simp at he2
      · simp at he2
      · simp at he2
      · have hmem : e ∈ assembleRows rows :=
          (List.mergeSort_perm (assembleRows rows) entryLeB).mem_iff.mp he2
        exact assembleRows_mem hmem

lemma explicit_milestone_date_eq_end {r : NRow} (h : r.End ≠ none) :
    explicit_milestone_date r = r.End := by
  unfold explicit_milestone_date
  rw [if_pos (Option.isSome_iff_ne_none.mpr h)]

lemma explicit_milestone_date_isSome {r : NRow} (h : r.End ≠ none) :
    (explicit_milestone_date r).isSome := by
  rw [explicit_milestone_date_eq_end h]
  exact Option.isSome_iff_ne_none.mpr h

lemma length_filterMap_of_isSome {α β : Type} (f : α → Option β) :
    ∀ l : List α, (∀ x ∈ l, (f x).isSome) → (l.filterMap f).length = l.length := by
  intro l
  induction l with
  | nil => intro _; rfl
  | cons a as ih =>
    intro h
    rw [List.filterMap_cons]
    cases hf : f a with
    | none =>
      have := h a (List.mem_cons_self a as)
      rw [hf] at this
      simp at this
    | some b =>
      simp only [List.length_cons]
      rw [ih (fun x hx => h x (List.mem_cons_of_mem a hx))]

lemma markOne_unmarked {r : NRow} (hm : r.IsMilestone = false) : markOne r = r := by
  unfold markOne
  rw [if_neg (by simp [hm])]

lemma markOne_status {r : NRow} (hm : r.IsMilestone = true) (he : r.End ≠ none) :
    (markOne r).Status = "milestone" := by
  unfold markOne
  rw [if_pos ⟨hm, explicit_milestone_date_isSome he⟩]

lemma regularOne_marked {r : NRow} (hm : r.IsMilestone = true) (he : r.End ≠ none) :
    regularOne (markOne r) = none := by
  unfold regularOne
  cases hS : (markOne r).Start with
  | none => rfl
  | some s =>
    dsimp only
    rw [if_neg (fun hcond => hcond.1 (markOne_status hm he))]

lemma regular_mark : ∀ l : List NRow, (∀ r ∈ l, r.End ≠ none) →
    regularEntries (markMilestones l)
      = regularEntries (l.filter (fun r => !r.IsMilestone)) := by
  intro l
  induction l with
  | nil => intro _; rfl
  | cons r rest ih =>
    intro h
    have hr := h r (List.mem_cons_self r rest)
    have ih2 := ih (fun x hx => h x (List.mem_cons_of_mem r hx))
    unfold markMilestones regularEntries at ih2 ⊢
    rw [List.map_cons, List.filterMap_cons, List.filter_cons]
    cases hm : r.IsMilestone with
    | true =>
      rw [regularOne_marked hm hr]
      simp only [hm, Bool.not_true, Bool.false_eq_true, if_false]
      exact ih2
    | false =>
      rw [markOne_unmarked hm]
      simp only [hm, Bool.not_false, if_true]
      rw [List.filterMap_cons]
      cases hro : regularOne r <;> simp only [ih2]

/-- C4: every surviving explicit-milestone row has a resolved `End` (the
normalizer fills it from `Start` when missing), so its milestone date is
`ResolvedEnd` (with `ResolvedStart` as the formal fallback of the source,
and `none` only when neither resolves — possible for no surviving row);
each such row yields exactly one milestone entry (the counts agree), and
the regular-task stage of the assembly is exactly the non-milestone rows,
so an explicit-milestone source row never also appears as a regular task
entry. -/
theorem explicit_milestone_spec (rows : List Row) :
    (∀ r ∈ normalizeTable rows, r.IsMilestone = true →
      r.End ≠ none ∧ explicit_milestone_date r = r.End) ∧
    (explicitMilestones (normalizeTable rows)).length
      = ((normalizeTable rows).filter (fun r => r.IsMilestone)).length ∧
    regularEntries (markMilestones (normalizeTable rows))
      = regularEntries ((normalizeTable rows).filter (fun r => !r.IsMilestone)) ∧
    (∀ r : NRow, r.End = none → r.Start = none → explicit_milestone_date r = none) := by
  refine ⟨?_, ?_, ?_, ?_⟩
  · intro r hr _
    have he := (normalizeTable_start_end hr).2
    exact ⟨he, explicit_milestone_date_eq_end he⟩
  · unfold explicitMilestones
    apply length_filterMap_of_isSome
    intro x hx
    have hx2 : x ∈ normalizeTable rows := List.mem_of_mem_filter hx
    have he := (normalizeTable_start_end hx2).2
    have h1 := explicit_milestone_date_isSome he
    obtain ⟨d, hd⟩ := Option.isSome_iff_exists.mp h1
    simp [hd]
  · exact regular_mark (normalizeTable rows) (fun r hr => (normalizeTable_start_end hr).2)
  · intro r he hs
    unfold explicit_milestone_date
    rw [if_neg (by simp [he]), hs]

lemma foldl_min_ge (c : ℚ) : ∀ (xs : List ℚ) (x : ℚ),
    (c ≤ xs.foldl min x) ↔ (c ≤ x ∧ ∀ y ∈ xs, c ≤ y) := by
  intro xs
  induction xs with
  | nil => intro x; simp
  | cons z zs ih =>
    intro x
    rw [List.foldl_cons, ih (min x z)]
    constructor
    · rintro ⟨h1, h2⟩
      rw [le_min_iff] at h1
      refine ⟨h1.1, ?_⟩
      intro y hy
      rcases List.mem_cons.mp hy with hy1 | hy2
      · rw [hy1]; exact h1.2
      · exact h2 y hy2
    · rintro ⟨h1, h2⟩
      exact ⟨le_min_iff.mpr ⟨h1, h2 z (List.mem_cons_self z zs)⟩,
        fun y hy => h2 y (List.mem_cons_of_mem z hy)⟩

lemma minQ_none_iff (l : List ℚ) : minQ l = none ↔ l = [] := by
  cases l <;> simp [minQ]

lemma minQ_ge_iff (c : ℚ) (l : List ℚ) (m : ℚ) (h : minQ l = some m) :
    c ≤ m ↔ ∀ x ∈ l, c ≤ x := by
  cases l with
  | nil => simp [minQ] at h
  | cons x xs =>
    unfold minQ at h
    rw [Option.some_inj] at h
    subst h
    rw [foldl_min_ge]
    constructor
    · rintro ⟨h1, h2⟩ y hy
      rcases List.mem_cons.mp hy with hy1 | hy2
      · rw [hy1]; exact h1
      · exact h2 y hy2
    · intro hall
      exact ⟨hall x (List.mem_cons_self x xs),
        fun y hy => hall y (List.mem_cons_of_mem x hy)⟩

lemma maxD_ne_none (l : List Int) (h : l ≠ []) : maxD l ≠ none := by
  cases l with
  | nil => exact absurd rfl h
  | cons x xs => simp [maxD]

lemma filterMap_ne_nil_of_all_some {α β : Type} (f : α → Option β) (l : List α)
    (hne : l ≠ []) (hall : ∀ x ∈ l, (f x).isSome) : l.filterMap f ≠ [] := by
  have hlen := length_filterMap_of_isSome f l hall
  intro h0
  rw [h0] at hlen
  simp only [List.length_nil] at hlen
  exact hne (List.length_eq_zero.mp hlen.symm)

lemma group_milestone_facts {g : String} {members : List NRow} {m : MEntry}
    (h : group_milestone g members = some m) :
    m.WorkPackage = g ∧
    maxD (members.filterMap (fun r => r.End)) = some m.MilestoneDate ∧
    members.head?.map (fun r => r.WorkStream) = some m.WorkStream := by
  unfold group_milestone at h
  split_ifs at h with hany
  cases hmc : minQ (members.filterMap fun r => r.PercentComplete) with
  | none => rw [hmc] at h; simp at h
  | some mv =>
    rw [hmc] at h
    dsimp only at h
    split_ifs at h with h100
    cases hmax : maxD (members.filterMap fun r => r.End) with
    | none => rw [hmax] at h; simp at h
    | some dmax =>
      rw [hmax] at h
      dsimp only at h
      rw [Option.some_inj] at h
      subst h
      have hne : members ≠ [] := by
        intro h0
        subst h0
        simp [minQ] at hmc
      cases members with
      | nil => exact absurd rfl hne
      | cons r0 rest => exact ⟨rfl, rfl, rfl⟩

lemma group_milestone_isSome_iff (g : String) (members : List NRow)
    (hend : ∀ r ∈ members, r.End ≠ none) :
    (group_milestone g members).isSome = true ↔
      (members ≠ [] ∧ ∀ r ∈ members, ∃ p, r.PercentComplete = some p ∧ 100 ≤ p) := by
  unfold group_milestone
  by_cases hany : members.any (fun r => r.PercentComplete.isNone) = true
  · rw [if_pos hany]
    simp only [Option.isSome_none, Bool.false_eq_true, false_iff]
    rw [List.any_eq_true] at hany
    obtain ⟨r, hr, hnone⟩ := hany
    rintro ⟨hne, hall⟩
    obtain ⟨p, hp, _⟩ := hall r hr
    rw [hp] at hnone
    simp at hnone
  · rw [if_neg hany]
    have hall_some : ∀ r ∈ members, ∃ p, r.PercentComplete = some p := by
      intro r hr
      cases hp : r.PercentComplete with
      | none =>
        exfalso
        apply hany
        rw [List.any_eq_true]
        exact ⟨r, hr, by rw [hp]; rfl⟩
      | some p => exact ⟨p, rfl⟩
    cases hmc : minQ (members.filterMap fun r => r.PercentComplete) with
    | none =>
      have hmem : members = [] := by
        rw [minQ_none_iff] at hmc
        cases hm : members with
        | nil => rfl
        | cons r rest =>
          exfalso
          obtain ⟨p, hp⟩ := hall_some r (by rw [hm]; exact List.mem_cons_self r rest)
          have hin : p ∈ members.filterMap fun r => r.PercentComplete :=
            List.mem_filterMap.mpr ⟨r, by rw [hm]; exact List.mem_cons_self r rest, hp⟩
          rw [hmc] at hin
          simp at hin
      subst hmem
      simp
    | some mv =>
      dsimp only
      by_cases h100 : 100 ≤ mv
      · rw [if_pos h100]
        have hne : members ≠ [] := by
          intro h0
          subst h0
          simp [minQ] at hmc
        have hends : ∀ r ∈ members, (r.End).isSome := by
          intro r hr
          have := hend r hr
          cases hE : r.End with
          | none => exact absurd hE this
          | some e => rfl
        cases hmax : maxD (members.filterMap fun r => r.End) with
        | none =>
          exact absurd hmax
            (maxD_ne_none _ (filterMap_ne_nil_of_all_some _ members hne hends))
        | some dmax =>
          dsimp only
          simp only [Option.isSome_some, true_iff]
          refine ⟨hne, ?_⟩
          intro r hr
          obtain ⟨p, hp⟩ := hall_some r hr
          refine ⟨p, hp, ?_⟩
          have hin : p ∈ members.filterMap fun r => r.PercentComplete :=
            List.mem_filterMap.mpr ⟨r, hr, hp⟩
          exact (minQ_ge_iff 100 _ mv hmc).mp h100 p hin
      · rw [if_neg h100]
        simp only [Option.isSome_none, Bool.false_eq_true, false_iff]
        rintro ⟨hne, hall⟩
        apply h100
        rw [minQ_ge_iff 100 _ mv hmc]
        intro x hx
        obtain ⟨r, hr, hpr⟩ := List.mem_filterMap.mp hx
        obtain ⟨p, hp, hp100⟩ := hall r hr
        rw [hp] at hpr
        rw [Option.some_inj] at hpr
        rw [← hpr]
        exact hp100

lemma countP_filterMap_labels (f : String → Option MEntry) (g : String)
    (hname : ∀ s m, f s = some m → m.WorkPackage = s) :
    ∀ labels : List String, labels.Nodup →
      (labels.filterMap f).countP (fun m => m.WorkPackage == g)
        = if g ∈ labels ∧ (f g).isSome = true then 1 else 0 := by
  intro labels
  induction labels with
  | nil => intro _; simp
  | cons a ls ih =>
    intro hnd
    have hna := (List.nodup_cons.mp hnd).1
    have hnd2 := (List.nodup_cons.mp hnd).2
    rw [List.filterMap_cons]
    cases hf : f a with
    | none =>
      rw [ih hnd2]
      by_cases hga : g = a
      · subst hga
        simp [hf, hna]
      · simp [List.mem_cons, hga]
    | some m =>
      have hm := hname a m hf
      rw [List.countP_cons, ih hnd2]
      by_cases hga : g = a
      · subst hga
        simp [hm, hna, hf]
      · have hpred : (m.WorkPackage == g) = false := by
          rw [hm]
          exact beq_eq_false_iff_ne.mpr (fun h => hga h.symm)
        simp [hpred, List.mem_cons, hga]

lemma groupLabels_nodup (l : List NRow) : (groupLabels l).Nodup := by
  unfold groupLabels
  exact ((List.perm_insertionSort strLe _).nodup_iff).mpr (List.nodup_dedup _)

lemma mem_groupLabels_iff (l : List NRow) (g : String) :
    g ∈ groupLabels l ↔ l.filter (fun r => r.MilestoneGroup == g) ≠ [] := by
  unfold groupLabels
  rw [(List.perm_insertionSort strLe _).mem_iff, List.mem_dedup, List.mem_map]
  constructor
  · rintro ⟨r, hr, hrg⟩ h0
    have hmem : r ∈ l.filter (fun r => r.MilestoneGroup == g) :=
      List.mem_filter.mpr ⟨hr, by simp [hrg]⟩
    rw [h0] at hmem
    simp at hmem
  · intro hne
    obtain ⟨r, hr⟩ := List.exists_mem_of_ne_nil _ hne
    have h2 := List.mem_filter.mp hr
    exact ⟨r, h2.1, by simpa using h2.2⟩

lemma wpRows_end_ne {l : List NRow} {r : NRow} (h : r ∈ wpRows l) : r.End ≠ none := by
  unfold wpRows at h
  have h2 := (List.mem_filter.mp h).2
  rw [decide_eq_true_eq] at h2
  exact h2.2.2

lemma engineNorm_start_end {rows : List Row} {r : NRow} (h : r ∈ engineNorm rows) :
    r.Start ≠ none ∧ r.End ≠ none := by
  obtain ⟨y, hy, hr⟩ := engineNorm_mem h
  subst hr
  have hse := normalizeTable_start_end hy
  rw [(markOne_fields y).2.2.1, (markOne_fields y).2.2.2.1]
  exact hse

lemma groupQualifies_iff (rows : List Row) (g : String) :
    groupQualifies rows g = true ↔
      (groupMembers rows g ≠ [] ∧
        ∀ r ∈ groupMembers rows g, ∃ p, r.PercentComplete = some p ∧ 100 ≤ p) := by
  unfold groupQualifies
  rw [Bool.and_eq_true, List.all_eq_true]
  constructor
  · rintro ⟨h1, h2⟩
    refine ⟨?_, ?_⟩
    · intro h0
      rw [h0] at h1
      simp at h1
    · intro r hr
      have h3 := h2 r hr
      cases hp : r.PercentComplete with
      | none => rw [hp] at h3; simp at h3
      | some p =>
        rw [hp] at h3
        exact ⟨p, rfl, by simpa using h3⟩
  · rintro ⟨h1, h2⟩
    refine ⟨?_, ?_⟩
    · cases hm : groupMembers rows g with
      | nil => exact absurd hm h1
      | cons r rest => rfl
    · intro r hr
      obtain ⟨p, hp, h100⟩ := h2 r hr
      rw [hp]
      simpa using h100

/-- C3: the rows eligible for grouped milestones are exactly the
normalized entries that are not explicit-milestone sources and carry a
non-empty group label (the additional `End`-present filter of the source
is vacuous, every surviving row has an `End`); for every label `g`,
exactly one group milestone named `g` (the label itself) is produced if
and only if the group has members, every member's `PercentComplete`
resolves, and all values are at least 100 (equivalently, the minimum is);
and any group milestone named `g` carries the maximum resolved `End`
across the members as its date and the first member's `WorkStream`. -/
theorem group_milestone_iff (rows : List Row) (g : String) :
    wpRows (engineNorm rows)
      = (engineNorm rows).filter (fun r => !r.IsMilestone && r.MilestoneGroup != "") ∧
    ((groupedMilestones (engineNorm rows)).countP (fun m => m.WorkPackage == g)
      = if groupQualifies rows g = true then 1 else 0) ∧
    (∀ m ∈ groupedMilestones (engineNorm rows), m.WorkPackage = g →
      maxD ((groupMembers rows g).filterMap (fun r => r.End)) = some m.MilestoneDate ∧
      (groupMembers rows g).head?.map (fun r => r.WorkStream) = some m.WorkStream) := by
  have hmemsend : ∀ r ∈ (wpRows (engineNorm rows)).filter
      (fun r => r.MilestoneGroup == g), r.End ≠ none := by
    intro r hr
    exact wpRows_end_ne (List.mem_of_mem_filter hr)
  refine ⟨?_, ?_, ?_⟩
  · unfold wpRows
    apply List.filter_congr
    intro x hx
    have hE := (engineNorm_start_end hx).2
    cases hmi : x.IsMilestone <;> by_cases hg : x.MilestoneGroup = "" <;>
      simp [hmi, hg, hE]
  · unfold groupedMilestones
    rw [countP_filterMap_labels
        (fun s => group_milestone s
          ((wpRows (engineNorm rows)).filter (fun r => r.MilestoneGroup == s)))
        g (fun s m h => (group_milestone_facts h).1)
        (groupLabels (wpRows (engineNorm rows))) (groupLabels_nodup _)]
    have hcond : (g ∈ groupLabels (wpRows (engineNorm rows)) ∧
        (group_milestone g
          ((wpRows (engineNorm rows)).filter (fun r => r.MilestoneGroup == g))).isSome = true)
        ↔ groupQualifies rows g = true := by
      rw [groupQualifies_iff, mem_groupLabels_iff,
        group_milestone_isSome_iff g
          ((wpRows (engineNorm rows)).filter (fun r => r.MilestoneGroup == g)) hmemsend]
      constructor
      · rintro ⟨h1, h2⟩
        exact h2
      · intro h
        exact ⟨h.1, h⟩
    exact if_congr hcond rfl rfl
  · intro m hm hname
    unfold groupedMilestones at hm
    rw [List.mem_filterMap] at hm
    obtain ⟨s, hs, hfs⟩ := hm
    have hfacts := group_milestone_facts hfs
    have hsg : s = g := by rw [← hfacts.1, hname]
    subst hsg
    exact ⟨hfacts.2.1, hfacts.2.2⟩
